import Mathlib

/-
Shallow embedding of the sentencepiece normalizer (normalizer.cc) and the
character-model trainer (char_model_trainer.cc).

Byte strings are modelled as `List Nat` (each entry one byte).  The darts
double-array trie is external to this repository; it is modelled abstractly
as a function from the remaining input to the list of
(matched length, value) pairs returned by commonPrefixSearch.
-/

/-- Modelled from the spec: `string_util::IsValidDecodeUTF8` is external to the
repository; the spec requires decoding of one well-formed UTF-8 sequence.
Predicate for a UTF-8 continuation byte (0x80..0xBF). -/
def isCont (b : Nat) : Prop := 0x80 ≤ b ∧ b ≤ 0xBF

instance (b : Nat) : Decidable (isCont b) := by
  unfold isCont; infer_instance

/-- Modelled from the spec: byte length of the first UTF-8 encoded rune of the
input, `none` when the head of the input is not a well-formed sequence.
Stands in for the external `string_util::IsValidDecodeUTF8`. -/
def utf8Len : List Nat → Option Nat
  | [] => none
  | b :: rest =>
    if b < 0x80 then some 1
    else if b < 0xC2 then none
    else if b ≤ 0xDF then
      if 1 ≤ rest.length ∧ isCont (rest.getD 0 0) then some 2 else none
    else if b ≤ 0xEF then
      if 2 ≤ rest.length ∧
         (if b = 0xE0 then 0xA0 ≤ rest.getD 0 0 ∧ rest.getD 0 0 ≤ 0xBF
          else if b = 0xED then 0x80 ≤ rest.getD 0 0 ∧ rest.getD 0 0 ≤ 0x9F
          else isCont (rest.getD 0 0)) ∧ isCont (rest.getD 1 0)
      then some 3 else none
    else if b ≤ 0xF4 then
      if 3 ≤ rest.length ∧
         (if b = 0xF0 then 0x90 ≤ rest.getD 0 0 ∧ rest.getD 0 0 ≤ 0xBF
          else if b = 0xF4 then 0x80 ≤ rest.getD 0 0 ∧ rest.getD 0 0 ≤ 0x8F
          else isCont (rest.getD 0 0)) ∧ isCont (rest.getD 1 0) ∧
         isCont (rest.getD 2 0)
      then some 4 else none
    else none

/-- Valid UTF-8 byte strings: a possibly empty sequence of well-formed runes. -/
inductive ValidUTF8 : List Nat → Prop
  | nil : ValidUTF8 []
  | cons (s : List Nat) (len : Nat) (h : utf8Len s = some len)
      (rest : ValidUTF8 (s.drop len)) : ValidUTF8 s

/-- Modelled from the spec: `string_util::UnicodeCharToUTF8` is external to the
repository; standard UTF-8 encoding of one code point. -/
def unicodeCharToUTF8 (c : Nat) : List Nat :=
  if c < 0x80 then [c]
  else if c < 0x800 then [0xC0 + c / 64, 0x80 + c % 64]
  else if c < 0x10000 then [0xE0 + c / 4096, 0x80 + c / 64 % 64, 0x80 + c % 64]
  else [0xF0 + c / 262144, 0x80 + c / 4096 % 64, 0x80 + c / 64 % 64,
        0x80 + c % 64]

/-- Little-endian 4-byte encoding of a 32-bit value
(`string_util::EncodePOD<uint32>`). -/
def encodePOD32 (n : Nat) : List Nat :=
  [n % 256, n / 2 ^ 8 % 256, n / 2 ^ 16 % 256, n / 2 ^ 24 % 256]

/-- Little-endian decoding of exactly 4 bytes
(`string_util::DecodePOD<uint32>`, which fails unless the view has exactly
`sizeof(uint32)` bytes). -/
def decodePOD32 : List Nat → Option Nat
  | [a, b, c, d] => some (a + 2 ^ 8 * b + 2 ^ 16 * c + 2 ^ 24 * d)
  | _ => none

/-- Normalizer::EncodePrecompiledCharsMap:
trie size (4 bytes, little endian), then the trie blob, then the
NUL-delimited normalized strings blob. -/
def encodePrecompiledCharsMap (trie_blob normalized : List Nat) : List Nat :=
  encodePOD32 trie_blob.length ++ trie_blob ++ normalized

/-- Normalizer::DecodePrecompiledCharsMap: splits a charsmap blob into the
trie blob and the normalized-strings blob, failing when the blob is too
short, the length bytes do not parse, or the parsed length reaches past the
end of the blob. -/
def decodePrecompiledCharsMap (blob : List Nat) :
    Except String (List Nat × List Nat) :=
  if blob.length ≤ 4 then .error "Blob for normalization rule is broken."
  else
    match decodePOD32 (blob.take 4) with
    | none => .error "Blob for normalization rule is broken."
    | some trie_blob_size =>
      if blob.length ≤ trie_blob_size then
        .error "Blob for normalization rule is broken."
      else
        .ok ((blob.drop 4).take trie_blob_size,
             (blob.drop 4).drop trie_blob_size)

/-- NormalizerSpec fields consumed by the normalizer (the C++ fields
add_dummy_prefix, remove_extra_whitespaces and escape_whitespaces). -/
structure NormSpec where
  addDummyPrefixFlag : Bool
  removeExtraWhitespaces : Bool
  escapeWhitespaces : Bool
deriving DecidableEq

/-- Normalizer state after construction: the spec, the latched status
(`none` is Ok), the trie modelled as the commonPrefixSearch result function
(absent when the charsmap was empty), and the normalized-strings blob. -/
structure Normalizer where
  spec : NormSpec
  status : Option String
  trie : Option (List Nat → List (Nat × Nat))
  normalizedBlob : List Nat

/-- Normalizer constructor: an empty charsmap gives identity normalization;
otherwise the blob is decoded, a failure being latched into `status`.
`dartsBuild` abstracts the external darts trie construction, mapping a trie
blob to its commonPrefixSearch function. -/
def Normalizer.make (dartsBuild : List Nat → List Nat → List (Nat × Nat))
    (spec : NormSpec) (charsmap : List Nat) : Normalizer :=
  if charsmap = [] then ⟨spec, none, none, []⟩
  else
    match decodePrecompiledCharsMap charsmap with
    | .error e => ⟨spec, some e, none, []⟩
    | .ok (trie_blob, normalized) =>
      ⟨spec, none, some (dartsBuild trie_blob), normalized⟩

/-- Trie query: commonPrefixSearch results for the current input, empty when
no trie was built. -/
def trieMatches (N : Normalizer) (input : List Nat) : List (Nat × Nat) :=
  match N.trie with
  | none => []
  | some f => f input

/-- Longest-rule scan of NormalizePrefix: the fold over trie results keeping
the pair with the greatest length (the first such pair), starting from
(0, 0). -/
def longestMatch (rs : List (Nat × Nat)) : Nat × Nat :=
  rs.foldl (fun acc r => if acc.1 = 0 ∨ r.1 > acc.1 then r else acc) (0, 0)

/-- The 3-byte UTF-8 replacement character U+FFFD. -/
def replacementChar : List Nat := [0xEF, 0xBF, 0xBD]

/-- The 3-byte UTF-8 sequence for U+2581 (LOWER ONE EIGHTH BLOCK). -/
def spaceSymbol : List Nat := [0xE2, 0x96, 0x81]

/-- Normalizer::NormalizePrefix: the longest trie rule wins and yields its
replacement (read from the normalized-strings blob up to the next NUL); with
no rule, one well-formed rune is passed through verbatim, and a malformed
head yields U+FFFD consuming exactly one byte. -/
def normalizePrefixStep (N : Normalizer) (input : List Nat) :
    List Nat × Nat :=
  if input = [] then ([], 0)
  else
    let lm := longestMatch (trieMatches N input)
    if lm.1 = 0 then
      match utf8Len input with
      | none => (replacementChar, 1)
      | some len => (input.take len, len)
    else (((N.normalizedBlob.drop lm.2).takeWhile fun b => b ≠ 0), lm.1)

/-- One emission step of Normalize's main loop: the bytes appended to the
normalized output and to norm_to_orig for a piece `sp` at origin `consumed`
(a literal space becomes the 3-byte U+2581 marker when escaping). -/
def emitSp (escape : Bool) (sp : List Nat) (consumed : Nat) :
    List Nat × List Nat :=
  (sp.flatMap fun b => if escape = true ∧ b = 32 then spaceSymbol else [b],
   sp.flatMap fun b =>
     if escape = true ∧ b = 32 then [consumed, consumed, consumed]
     else [consumed])

/-- Leading-space stripping loop of Normalize (runs when
remove_extra_whitespaces is set): drops prefix matches whose replacement is
a single space, accumulating the consumed length.  Structured as fuel
recursion; each iteration consumes at least one input byte, so fuel
`input.length + 1` never runs out. -/
def stripLeadingF (N : Normalizer) : Nat → List Nat → Nat → List Nat × Nat
  | 0, input, consumed => (input, consumed)
  | fuel + 1, input, consumed =>
    if input = [] then (input, consumed)
    else
      let p := normalizePrefixStep N input
      if p.1 = [32] then
        stripLeadingF N fuel (input.drop p.2) (consumed + p.2)
      else (input, consumed)

/-- Main loop of Normalize: repeatedly takes a prefix match, strips leading
literal spaces of the replacement when the previous piece ended in a space,
emits the remaining bytes (escaping spaces when configured), tracks the
is_prev_space flag and the consumed origin offset.  Fuel recursion with the
same sufficiency argument as stripLeadingF. -/
def mainLoopF (N : Normalizer) :
    Nat → List Nat → Nat → Bool → List Nat → List Nat →
    List Nat × List Nat × Nat
  | 0, _, consumed, _, norm, tr => (norm, tr, consumed)
  | fuel + 1, input, consumed, prev, norm, tr =>
    if input = [] then (norm, tr, consumed)
    else
      let p := normalizePrefixStep N input
      let sp := if prev then p.1.dropWhile (fun b => b = 32) else p.1
      let e := emitSp N.spec.escapeWhitespaces sp consumed
      let norm2 := if sp = [] then norm else norm ++ e.1
      let tr2 := if sp = [] then tr else tr ++ e.2
      let prev2 := if sp = [] then prev else sp.getLast? == some 32
      let prev3 := if N.spec.removeExtraWhitespaces then prev2 else false
      mainLoopF N fuel (input.drop p.2) (consumed + p.2) prev3 norm2 tr2

/-- Trailing-space stripping loop of Normalize (runs when
remove_extra_whitespaces is set): while the output ends with the whitespace
marker, truncates output and trace and rewinds `consumed` to the trace entry
at the truncation point. -/
def stripTrailingF (space : List Nat) :
    Nat → List Nat → List Nat → Nat → List Nat × List Nat × Nat
  | 0, norm, tr, consumed => (norm, tr, consumed)
  | fuel + 1, norm, tr, consumed =>
    if space ≠ [] ∧ space.IsSuffix norm then
      let len := norm.length - space.length
      stripTrailingF space fuel (norm.take len) (tr.take len) (tr.getD len 0)
    else (norm, tr, consumed)

/-- Leading-whitespace stage of Normalize: the remaining input and consumed
count after the optional heading-space stripping loop. -/
def stStep (N : Normalizer) (input : List Nat) : List Nat × Nat :=
  if N.spec.removeExtraWhitespaces then
    stripLeadingF N (input.length + 1) input 0
  else (input, 0)

/-- Dummy-prefix stage of Normalize: the initial output and trace emitted
for add_dummy_prefix, every byte recording the already-consumed count. -/
def preStep (N : Normalizer) (c : Nat) : List Nat × List Nat :=
  if N.spec.addDummyPrefixFlag then
    if N.spec.escapeWhitespaces then (spaceSymbol, [c, c, c])
    else ([32], [c])
  else ([], [])

/-- Trailing-whitespace stage of Normalize: the optional stripping of
trailing whitespace markers from the main loop result. -/
def finStep (N : Normalizer) (ml : List Nat × List Nat × Nat) :
    List Nat × List Nat × Nat :=
  if N.spec.removeExtraWhitespaces then
    stripTrailingF (if N.spec.escapeWhitespaces then spaceSymbol else [32])
      (ml.1.length + 1) ml.1 ml.2.1 ml.2.2
  else ml

/-- Body of Normalize after the empty-input and status early returns:
leading strip, early return when everything was whitespace, dummy prefix,
main loop, trailing strip, sentinel entry and the closing length check. -/
def normalizeBody (N : Normalizer) (input : List Nat) :
    Option String × List Nat × List Nat :=
  let st := stStep N input
  if st.1 = [] then (none, [], [])
  else
    let fin := finStep N (mainLoopF N (st.1.length + 1) st.1 st.2
      N.spec.removeExtraWhitespaces (preStep N st.2).1 (preStep N st.2).2)
    let tr2 := fin.2.1 ++ [fin.2.2]
    if tr2.length = fin.1.length + 1 then (none, fin.1, tr2)
    else (some "norm_to_orig size mismatch", fin.1, tr2)

/-- Normalizer::Normalize with explicit output parameters: both outputs are
cleared first, empty input succeeds with empty outputs, then the latched
status is propagated; otherwise leading stripping, the dummy prefix, the
main loop, trailing stripping, the final sentinel trace entry and the
closing length check are performed in order.  Returns
(status, normalized, norm_to_orig); `none` is Ok. -/
def normalizeInto (N : Normalizer) (input _norm0 _tr0 : List Nat) :
    Option String × List Nat × List Nat :=
  let norm : List Nat := []
  let tr : List Nat := []
  if input = [] then (none, norm, tr)
  else
    match N.status with
    | some e => (some e, norm, tr)
    | none => normalizeBody N input

/-- Normalizer::Normalize returning status and the two outputs. -/
def Normalizer.normalize (N : Normalizer) (input : List Nat) :
    Except String (List Nat × List Nat) :=
  match normalizeInto N input [] [] with
  | (some e, _, _) => .error e
  | (none, n, t) => .ok (n, t)

/-- The string-returning Normalize overload, which discards the status and
the trace. -/
def normalizeStr (N : Normalizer) (input : List Nat) : List Nat :=
  (normalizeInto N input [] []).2.1

/-- Normalizer built from an empty charsmap (identity rules): no trie, Ok
status. -/
def mkEmptyNormalizer (spec : NormSpec) : Normalizer :=
  Normalizer.make (fun _ _ => []) spec []

/-- Well-formedness of the abstract trie: commonPrefixSearch never reports a
match longer than its input (guaranteed by darts for any real trie). -/
def TrieOK (N : Normalizer) : Prop :=
  ∀ f, N.trie = some f → ∀ s r, r ∈ f s → r.1 ≤ s.length

/-- Model types of TrainerSpec (sentencepiece_model.proto). -/
inductive ModelType
  | UNIGRAM
  | BPE
  | WORD
  | CHAR
deriving DecidableEq

/-- Environment of character::Trainer::Train: the latched builder status,
the two spec fields the consistency checks read, the outcome of the external
LoadSentences together with the state it populates (required_chars_ as a
list of (code point, frequency) entries, and its externally Sorted order),
the vocab size, the number of meta pieces, and the status of the external
Save. -/
structure CharTrainerEnv where
  status : Option String
  escape_whitespaces : Bool
  model_type : ModelType
  load : Option String
  required : List (Nat × Nat)
  sortedRequired : List (Nat × Nat)
  vocab_size : Nat
  meta : Nat
  save : Option String

/-- Emission loop of character::Trainer::Train: walks the sorted required
characters, stopping once `k` pieces have been emitted, each piece scored
`log frequency - logsum`. -/
noncomputable def emitPieces (k : Nat) (logsum : ℝ) :
    List (Nat × Nat) → List (List Nat × ℝ) → List (List Nat × ℝ)
  | [], acc => acc
  | it :: rest, acc =>
    if acc.length = k then acc
    else emitPieces k logsum rest
      (acc ++ [(unicodeCharToUTF8 it.1, Real.log (it.2 : ℝ) - logsum)])

/-- Outcome of character::Trainer::Train: the returned status (`none` is
Ok), whether LoadSentences was reached, and the final_pieces_ left in the
trainer. -/
structure TrainOutcome where
  status : Option String
  loadCalled : Bool
  finalPieces : List (List Nat × ℝ)

/-- character::Trainer::Train: propagates the latched status, checks
escape_whitespaces and the CHAR model type, loads sentences, checks the
remaining vocab budget, sums the required-character frequencies (a uint64
accumulator), emits the sorted required characters scored against the log of
that sum, and finishes with Save.  The trainer starts with empty
final_pieces_, so the emptiness check always passes. -/
noncomputable def charTrainerTrain (env : CharTrainerEnv) : TrainOutcome :=
  match env.status with
  | some e => ⟨some e, false, []⟩
  | none =>
    if env.escape_whitespaces = false then
      ⟨some "normalizer_spec_.escape_whitespaces()", false, []⟩
    else if env.model_type ≠ ModelType.CHAR then
      ⟨some "TrainerSpec::CHAR == trainer_spec_.model_type()", false, []⟩
    else
      match env.load with
      | some e => ⟨some e, true, []⟩
      | none =>
        if env.vocab_size < env.meta then
          ⟨some "vocab_size >= 0", true, []⟩
        else
          let sum : ℕ := ((env.required.map fun it => it.2).sum) % 2 ^ 64
          let logsum := Real.log (sum : ℝ)
          let pieces := emitPieces (env.vocab_size - env.meta) logsum
            env.sortedRequired []
          ⟨env.save, true, pieces⟩

lemma utf8Len_pos {s : List Nat} {len : Nat} (h : utf8Len s = some len) :
    1 ≤ len := by
  cases s with
  | nil => simp [utf8Len] at h
  | cons b rest =>
    simp only [utf8Len] at h
    split_ifs at h <;> simp_all <;> omega

lemma utf8Len_le {s : List Nat} {len : Nat} (h : utf8Len s = some len) :
    len ≤ s.length := by
  cases s with
  | nil => simp [utf8Len] at h
  | cons b rest =>
    simp only [utf8Len] at h
    split_ifs at h <;> simp_all <;> omega

lemma length_encodePOD32 (n : Nat) : (encodePOD32 n).length = 4 := rfl

lemma decodePOD32_encodePOD32 (n : Nat) :
    decodePOD32 (encodePOD32 n) = some (n % 2 ^ 32) := by
  simp only [encodePOD32, decodePOD32, Option.some.injEq]
  omega

lemma decode_charsmap_short {blob : List Nat} (h4 : blob.length ≤ 4) :
    decodePrecompiledCharsMap blob =
      .error "Blob for normalization rule is broken." := by
  rw [decodePrecompiledCharsMap, if_pos h4]

lemma decode_charsmap_nopod {blob : List Nat} (h4 : ¬ blob.length ≤ 4)
    (hp : decodePOD32 (blob.take 4) = none) :
    decodePrecompiledCharsMap blob =
      .error "Blob for normalization rule is broken." := by
  rw [decodePrecompiledCharsMap, if_neg h4, hp]

lemma decode_charsmap_some {blob : List Nat} (n : Nat)
    (h4 : ¬ blob.length ≤ 4) (hp : decodePOD32 (blob.take 4) = some n) :
    decodePrecompiledCharsMap blob =
      if blob.length ≤ n then
        .error "Blob for normalization rule is broken."
      else .ok ((blob.drop 4).take n, (blob.drop 4).drop n) := by
  rw [decodePrecompiledCharsMap, if_neg h4, hp]

/-- Claim C4 (counterexample): the blob codec round-trip fails when both the
trie blob and the normalized-strings blob are empty, because the encoded
blob then has exactly 4 bytes and Decode rejects any blob of length at
most 4. -/
theorem decode_encode_empty_fails :
    decodePrecompiledCharsMap (encodePrecompiledCharsMap [] []) =
      .error "Blob for normalization rule is broken." := rfl

/-- Claim C4 (amended): for trie and normalized blobs that are not both
empty (and a trie blob shorter than 2^32 bytes, so that its length survives
the 4-byte prefix), Decode inverts Encode exactly. -/
theorem decode_encode_roundtrip (t nm : List Nat)
    (hlt : t.length < 2 ^ 32) (hne : t ≠ [] ∨ nm ≠ []) :
    decodePrecompiledCharsMap (encodePrecompiledCharsMap t nm) =
      .ok (t, nm) := by
  have hpos : 0 < t.length + nm.length := by
    rcases hne with h | h
    · have := List.length_pos.mpr h
      omega
    · have := List.length_pos.mpr h
      omega
  have hlen : (encodePrecompiledCharsMap t nm).length =
      4 + (t.length + nm.length) := by
    simp [encodePrecompiledCharsMap, encodePOD32]
    omega
  have htake : (encodePrecompiledCharsMap t nm).take 4 =
      encodePOD32 t.length := by
    have h4 : (encodePOD32 t.length).length = 4 := rfl
    rw [encodePrecompiledCharsMap, List.append_assoc, ← h4,
      List.take_left]
  have hdrop : (encodePrecompiledCharsMap t nm).drop 4 = t ++ nm := by
    have h4 : (encodePOD32 t.length).length = 4 := rfl
    rw [encodePrecompiledCharsMap, List.append_assoc, ← h4,
      List.drop_left]
  rw [decode_charsmap_some t.length (by omega)
    (by rw [htake, decodePOD32_encodePOD32, Nat.mod_eq_of_lt hlt])]
  rw [if_neg (by omega), hdrop, List.take_left, List.drop_left]

/-- Claim C4 (witness for the amended theorem). -/
theorem decode_encode_roundtrip_witness :
    decodePrecompiledCharsMap (encodePrecompiledCharsMap [7] [8, 9]) =
      .ok ([7], [8, 9]) :=
  decode_encode_roundtrip [7] [8, 9] (by decide) (Or.inl (by decide))

/-- Claim C3: DecodePrecompiledCharsMap fails exactly when the blob has at
most 4 bytes, or the 4-byte length bytes do not parse, or the parsed length
reaches to or past the end of the blob; on success it returns the slice of
the parsed length after the 4 length bytes and the remaining bytes. -/
theorem decode_charsmap_characterization (blob : List Nat) :
    ((∃ e, decodePrecompiledCharsMap blob = .error e) ↔
      (blob.length ≤ 4 ∨ decodePOD32 (blob.take 4) = none ∨
       ∃ n, decodePOD32 (blob.take 4) = some n ∧ blob.length ≤ n)) ∧
    (∀ n, decodePOD32 (blob.take 4) = some n → 4 < blob.length →
      n < blob.length →
      decodePrecompiledCharsMap blob =
        .ok ((blob.drop 4).take n, (blob.drop 4).drop n)) := by
  constructor
  · constructor
    · intro he
      rcases he with ⟨e, he⟩
      by_cases h4 : blob.length ≤ 4
      · exact Or.inl h4
      · cases hp : decodePOD32 (blob.take 4) with
        | none => exact Or.inr (Or.inl rfl)
        | some n =>
          rw [decode_charsmap_some n h4 hp] at he
          by_cases hn : blob.length ≤ n
          · exact Or.inr (Or.inr ⟨n, rfl, hn⟩)
          · rw [if_neg hn] at he
            exact absurd he (by simp)
    · intro hc
      rcases hc with h | h | ⟨n, hn, hge⟩
      · exact ⟨_, decode_charsmap_short h⟩
      · by_cases h4 : blob.length ≤ 4
        · exact ⟨_, decode_charsmap_short h4⟩
        · exact ⟨_, decode_charsmap_nopod h4 h⟩
      · by_cases h4 : blob.length ≤ 4
        · exact ⟨_, decode_charsmap_short h4⟩
        · rw [decode_charsmap_some n h4 hn, if_pos hge]
          exact ⟨_, rfl⟩
  · intro n hn h4 hlt
    rw [decode_charsmap_some n (by omega) hn, if_neg (by omega)]

/-- Claim C3 (witness): a 5-byte blob with parsed length 1 splits into a
1-byte trie blob and an empty normalized blob. -/
theorem decode_charsmap_characterization_witness :
    decodePrecompiledCharsMap [1, 0, 0, 0, 9] = .ok ([9], []) :=
  (decode_charsmap_characterization [1, 0, 0, 0, 9]).2 1 rfl
    (by decide) (by decide)

/-- Claim C7: with an empty charsmap and remove_extra_whitespaces,
escape_whitespaces and add_dummy_prefix all set, the input "a    b"
normalizes to the 8 bytes of the string with the U+2581 marker, then 'a',
then one U+2581 marker for the whole run of four spaces, then 'b'. -/
theorem normalize_whitespace_collapsing :
    Normalizer.normalize (mkEmptyNormalizer ⟨true, true, true⟩)
        [97, 32, 32, 32, 32, 98] =
      .ok ([226, 150, 129, 97, 226, 150, 129, 98],
           [0, 0, 0, 0, 1, 1, 1, 5, 6]) := rfl

/-- Claim C2 (counterexample): a Normalizer whose construction latched a
corrupt-charsmap error still returns Ok from Normalize on empty input,
because the empty-input early return precedes the status check. -/
theorem normalize_empty_input_skips_status_check :
    (Normalizer.make (fun _ _ => []) ⟨true, true, true⟩ [1, 2, 3]).status =
      some "Blob for normalization rule is broken." ∧
    Normalizer.normalize
        (Normalizer.make (fun _ _ => []) ⟨true, true, true⟩ [1, 2, 3]) [] =
      .ok ([], []) := ⟨rfl, rfl⟩

/-- Claim C2 (amended): for every nonempty input, a latched construction
error is propagated by Normalize before any other processing. -/
theorem normalize_propagates_latched_status (N : Normalizer)
    (input : List Nat) (e : String) (hs : N.status = some e)
    (hne : input ≠ []) : Normalizer.normalize N input = .error e := by
  rw [Normalizer.normalize, normalizeInto]
  rw [if_neg hne, hs]

/-- Claim C2 (witness). -/
theorem normalize_propagates_latched_status_witness :
    Normalizer.normalize
        (Normalizer.make (fun _ _ => []) ⟨true, true, true⟩ [1, 2, 3])
        [97] =
      .error "Blob for normalization rule is broken." :=
  normalize_propagates_latched_status _ _ _ rfl (by decide)

/-- Claim C5: with no trie prefix match and a malformed UTF-8 head,
NormalizePrefix returns the 3-byte replacement character U+FFFD and
consumes exactly one byte; consequently a lone continuation byte 0x80 run
through Normalize with identity options yields exactly one U+FFFD and a
trace whose sentinel advances the origin cursor by exactly 1. -/
theorem normalize_malformed_byte :
    (∀ (N : Normalizer) (input : List Nat), input ≠ [] →
      trieMatches N input = [] → utf8Len input = none →
      normalizePrefixStep N input = (replacementChar, 1)) ∧
    Normalizer.normalize (mkEmptyNormalizer ⟨false, false, false⟩) [128] =
      .ok (replacementChar, [0, 0, 0, 1]) := by
  constructor
  · intro N input hne hm hu
    simp [normalizePrefixStep, hne, hm, hu, longestMatch]
  · rfl

/-- Claim C5 (witness). -/
theorem normalize_malformed_byte_witness :
    normalizePrefixStep (mkEmptyNormalizer ⟨false, false, false⟩) [128] =
      (replacementChar, 1) :=
  normalize_malformed_byte.1 _ _ (by decide) rfl rfl

lemma utf8Len_ne_nil {s : List Nat} {len : Nat} (h : utf8Len s = some len) :
    s ≠ [] := by
  intro he
  subst he
  simp [utf8Len] at h

lemma normalizePrefixStep_valid {N : Normalizer} (hT : N.trie = none)
    {s : List Nat} {len : Nat} (h : utf8Len s = some len) :
    normalizePrefixStep N s = (s.take len, len) := by
  have hs : s ≠ [] := utf8Len_ne_nil h
  simp [normalizePrefixStep, hs, trieMatches, hT, longestMatch, h]

lemma mainLoopF_id {N : Normalizer} (hT : N.trie = none)
    (hesc : N.spec.escapeWhitespaces = false)
    (hrm : N.spec.removeExtraWhitespaces = false)
    (s : List Nat) (hv : ValidUTF8 s) :
    ∀ (fuel consumed : Nat) (norm tr : List Nat), s.length < fuel →
      (mainLoopF N fuel s consumed false norm tr).1 = norm ++ s := by
  induction hv with
  | nil =>
    intro fuel consumed norm tr hfuel
    cases fuel with
    | zero => omega
    | succ f => simp [mainLoopF]
  | cons s len h hrest IH =>
    intro fuel consumed norm tr hfuel
    have hs : s ≠ [] := utf8Len_ne_nil h
    have hlen : 1 ≤ len := utf8Len_pos h
    have htk : s.take len ≠ [] := by
      simp [List.take_eq_nil_iff, hs]
      omega
    cases fuel with
    | zero => omega
    | succ f =>
      simp only [mainLoopF, if_neg hs, normalizePrefixStep_valid hT h,
        Bool.false_eq_true, if_false, if_neg htk, hrm]
      rw [IH f (consumed + len) _ _ (by have := utf8Len_le h; simp; omega)]
      simp [hesc, emitSp, List.take_append_drop]

/-- Claim C6: with an empty charsmap and add_dummy_prefix,
remove_extra_whitespaces and escape_whitespaces all disabled, Normalize is
the identity on every valid-UTF-8 byte string. -/
theorem normalize_identity (s : List Nat) (hv : ValidUTF8 s) :
    normalizeStr (mkEmptyNormalizer ⟨false, false, false⟩) s = s := by
  by_cases hs : s = []
  · subst hs
    rfl
  · have hm := mainLoopF_id
      (N := ⟨⟨false, false, false⟩, none, none, []⟩)
      rfl rfl rfl s hv (s.length + 1) 0 [] [] (by omega)
    have hN : mkEmptyNormalizer ⟨false, false, false⟩ =
        ⟨⟨false, false, false⟩, none, none, []⟩ := rfl
    rw [normalizeStr, hN]
    simp [normalizeInto, normalizeBody, stStep, preStep, finStep, hs]
    split
    · simpa using hm
    · simpa using hm

/-- Claim C6 (witness): the two-byte UTF-8 string for U+00E9 is returned
unchanged. -/
theorem normalize_identity_witness :
    normalizeStr (mkEmptyNormalizer ⟨false, false, false⟩) [195, 169] =
      [195, 169] :=
  normalize_identity [195, 169]
    (ValidUTF8.cons _ 2 rfl ValidUTF8.nil)

lemma foldl_longest_mem (rs : List (Nat × Nat)) :
    ∀ acc : Nat × Nat,
      rs.foldl (fun acc r => if acc.1 = 0 ∨ r.1 > acc.1 then r else acc)
          acc = acc ∨
      rs.foldl (fun acc r => if acc.1 = 0 ∨ r.1 > acc.1 then r else acc)
          acc ∈ rs := by
  induction rs with
  | nil => intro acc; exact Or.inl rfl
  | cons r rs IH =>
    intro acc
    simp only [List.foldl_cons]
    rcases IH (if acc.1 = 0 ∨ r.1 > acc.1 then r else acc) with h | h
    · rw [h]
      split_ifs with hc
      · exact Or.inr (List.mem_cons_self r rs)
      · exact Or.inl rfl
    · exact Or.inr (List.mem_cons_of_mem r h)

lemma longestMatch_mem (rs : List (Nat × Nat)) :
    longestMatch rs = (0, 0) ∨ longestMatch rs ∈ rs :=
  foldl_longest_mem rs (0, 0)

lemma normalizePrefixStep_pos {N : Normalizer} {input : List Nat}
    (hne : input ≠ []) : 1 ≤ (normalizePrefixStep N input).2 := by
  rw [normalizePrefixStep, if_neg hne]
  by_cases hl : (longestMatch (trieMatches N input)).1 = 0
  · rw [if_pos hl]
    cases hu : utf8Len input with
    | none => exact le_refl 1
    | some len => exact utf8Len_pos hu
  · rw [if_neg hl]
    omega

lemma normalizePrefixStep_le {N : Normalizer} (hwf : TrieOK N)
    (input : List Nat) : (normalizePrefixStep N input).2 ≤ input.length := by
  by_cases hne : input = []
  · subst hne
    simp [normalizePrefixStep]
  · rw [normalizePrefixStep, if_neg hne]
    by_cases hl : (longestMatch (trieMatches N input)).1 = 0
    · rw [if_pos hl]
      cases hu : utf8Len input with
      | none =>
        have : 1 ≤ input.length := by
          cases input with
          | nil => exact absurd rfl hne
          | cons b bs => simp
        exact this
      | some len => exact utf8Len_le hu
    · rw [if_neg hl]
      rcases longestMatch_mem (trieMatches N input) with h | h
      · rw [h] at hl
        exact absurd rfl hl
      · cases ht : N.trie with
        | none =>
          rw [trieMatches, ht] at h
          simp at h
        | some f =>
          simp only [trieMatches, ht] at h ⊢
          exact hwf f ht input _ h

lemma emitSp_length (esc : Bool) (sp : List Nat) (c : Nat) :
    (emitSp esc sp c).2.length = (emitSp esc sp c).1.length := by
  induction sp with
  | nil => rfl
  | cons b bs IH =>
    by_cases hb : esc = true ∧ b = 32
    · simp only [emitSp, List.flatMap_cons, List.length_append,
        if_pos hb] at IH ⊢
      simp [IH, spaceSymbol]
    · simp only [emitSp, List.flatMap_cons, List.length_append,
        if_neg hb] at IH ⊢
      simp [IH]

lemma emitSp_mem (esc : Bool) (sp : List Nat) (c : Nat) :
    ∀ x ∈ (emitSp esc sp c).2, x = c := by
  intro x hx
  rw [emitSp] at hx
  simp only [List.mem_flatMap] at hx
  rcases hx with ⟨b, _, hxb⟩
  split_ifs at hxb <;> simp at hxb <;> tauto

lemma const_pairwise {l : List Nat} {c : Nat} (h : ∀ x ∈ l, x = c) :
    l.Pairwise (· ≤ ·) := by
  induction l with
  | nil => exact List.Pairwise.nil
  | cons b bs IH =>
    refine List.Pairwise.cons ?_ (IH fun x hx => h x (List.mem_cons_of_mem b hx))
    intro y hy
    rw [h b (List.mem_cons_self b bs), h y (List.mem_cons_of_mem b hy)]

lemma mainLoopF_len (N : Normalizer) :
    ∀ (fuel : Nat) (input : List Nat) (consumed : Nat) (prev : Bool)
      (norm tr : List Nat), tr.length = norm.length →
      (mainLoopF N fuel input consumed prev norm tr).2.1.length =
        (mainLoopF N fuel input consumed prev norm tr).1.length := by
  intro fuel
  induction fuel with
  | zero =>
    intro input consumed prev norm tr h
    simpa [mainLoopF] using h
  | succ fuel IH =>
    intro input consumed prev norm tr h
    by_cases hne : input = []
    · subst hne
      simpa [mainLoopF] using h
    · simp only [mainLoopF, if_neg hne]
      apply IH
      split_ifs <;> first | exact h | simp [h, emitSp_length]

lemma mainLoopF_bounds {N : Normalizer} (hwf : TrieOK N) :
    ∀ (fuel : Nat) (input : List Nat) (consumed : Nat) (prev : Bool)
      (norm tr : List Nat),
      tr.Pairwise (· ≤ ·) → (∀ x ∈ tr, x ≤ consumed) →
      (mainLoopF N fuel input consumed prev norm tr).2.1.Pairwise (· ≤ ·) ∧
      (∀ x ∈ (mainLoopF N fuel input consumed prev norm tr).2.1,
        x ≤ (mainLoopF N fuel input consumed prev norm tr).2.2) ∧
      consumed ≤ (mainLoopF N fuel input consumed prev norm tr).2.2 ∧
      (mainLoopF N fuel input consumed prev norm tr).2.2 ≤
        consumed + input.length := by
  intro fuel
  induction fuel with
  | zero =>
    intro input consumed prev norm tr hpw hub
    simp only [mainLoopF]
    exact ⟨hpw, hub, le_refl _, Nat.le_add_right _ _⟩
  | succ fuel IH =>
    intro input consumed prev norm tr hpw hub
    by_cases hne : input = []
    · simp only [mainLoopF, if_pos hne]
      exact ⟨hpw, hub, le_refl _, Nat.le_add_right _ _⟩
    · simp only [mainLoopF, if_neg hne]
      have h1 : 1 ≤ (normalizePrefixStep N input).2 :=
        normalizePrefixStep_pos hne
      have h2 : (normalizePrefixStep N input).2 ≤ input.length :=
        normalizePrefixStep_le hwf input
      have step : ∀ (prev2 : Bool) (norm2 tr2 : List Nat),
          tr2.Pairwise (· ≤ ·) →
          (∀ x ∈ tr2, x ≤ consumed) →
          (mainLoopF N fuel (input.drop (normalizePrefixStep N input).2)
            (consumed + (normalizePrefixStep N input).2) prev2 norm2
            tr2).2.1.Pairwise (· ≤ ·) ∧
          (∀ x ∈ (mainLoopF N fuel
              (input.drop (normalizePrefixStep N input).2)
              (consumed + (normalizePrefixStep N input).2) prev2 norm2
              tr2).2.1,
            x ≤ (mainLoopF N fuel
              (input.drop (normalizePrefixStep N input).2)
              (consumed + (normalizePrefixStep N input).2) prev2 norm2
              tr2).2.2) ∧
          consumed ≤ (mainLoopF N fuel
            (input.drop (normalizePrefixStep N input).2)
            (consumed + (normalizePrefixStep N input).2) prev2 norm2
            tr2).2.2 ∧
          (mainLoopF N fuel (input.drop (normalizePrefixStep N input).2)
            (consumed + (normalizePrefixStep N input).2) prev2 norm2
            tr2).2.2 ≤ consumed + input.length := by
        intro prev2 norm2 tr2 hpw2 hub2
        obtain ⟨b1, b2, b3, b4⟩ := IH
          (input.drop (normalizePrefixStep N input).2)
          (consumed + (normalizePrefixStep N input).2) prev2 norm2 tr2
          hpw2 (fun x hx => le_trans (hub2 x hx) (Nat.le_add_right _ _))
        refine ⟨b1, b2, le_trans (Nat.le_add_right _ _) b3, ?_⟩
        have hd := List.length_drop (normalizePrefixStep N input).2 input
        omega
      have hpwa : ∀ sp : List Nat,
          (tr ++ (emitSp N.spec.escapeWhitespaces sp consumed).2).Pairwise
            (· ≤ ·) := by
        intro sp
        refine List.pairwise_append.mpr
          ⟨hpw, const_pairwise (fun x hx => emitSp_mem _ _ _ x hx), ?_⟩
        intro x hx y hy
        rw [emitSp_mem _ _ _ y hy]
        exact hub x hx
      have huba : ∀ sp : List Nat,
          ∀ x ∈ tr ++ (emitSp N.spec.escapeWhitespaces sp consumed).2,
            x ≤ consumed := by
        intro sp x hx
        rcases List.mem_append.mp hx with hx | hx
        · exact hub x hx
        · rw [emitSp_mem _ _ _ x hx]
      split_ifs <;>
        first
          | exact step _ _ _ hpw hub
          | exact step _ _ _ (hpwa _) (huba _)

lemma stripLeadingF_le {N : Normalizer} (hwf : TrieOK N) :
    ∀ (fuel : Nat) (input : List Nat) (consumed : Nat),
      (stripLeadingF N fuel input consumed).2 +
        (stripLeadingF N fuel input consumed).1.length ≤
      consumed + input.length := by
  intro fuel
  induction fuel with
  | zero =>
    intro input consumed
    simp [stripLeadingF]
  | succ fuel IH =>
    intro input consumed
    by_cases hne : input = []
    · simp [stripLeadingF, hne]
    · simp only [stripLeadingF, if_neg hne]
      split_ifs with hsp
      · have h2 := normalizePrefixStep_le hwf input
        have hIH := IH (input.drop (normalizePrefixStep N input).2)
          (consumed + (normalizePrefixStep N input).2)
        have hd := List.length_drop (normalizePrefixStep N input).2 input
        omega
      · exact le_refl _

lemma stripTrailingF_len (space : List Nat) :
    ∀ (fuel : Nat) (norm tr : List Nat) (consumed : Nat),
      tr.length = norm.length →
      (stripTrailingF space fuel norm tr consumed).2.1.length =
        (stripTrailingF space fuel norm tr consumed).1.length := by
  intro fuel
  induction fuel with
  | zero =>
    intro norm tr consumed h
    simpa [stripTrailingF] using h
  | succ fuel IH =>
    intro norm tr consumed h
    simp only [stripTrailingF]
    split_ifs with hc
    · apply IH
      simp [h]
    · exact h

lemma stripTrailingF_bounds (space : List Nat) (B : Nat) :
    ∀ (fuel : Nat) (norm tr : List Nat) (consumed : Nat),
      tr.length = norm.length → tr.Pairwise (· ≤ ·) →
      (∀ x ∈ tr, x ≤ consumed) → consumed ≤ B →
      (stripTrailingF space fuel norm tr consumed).2.1.Pairwise (· ≤ ·) ∧
      (∀ x ∈ (stripTrailingF space fuel norm tr consumed).2.1,
        x ≤ (stripTrailingF space fuel norm tr consumed).2.2) ∧
      (stripTrailingF space fuel norm tr consumed).2.2 ≤ B := by
  intro fuel
  induction fuel with
  | zero =>
    intro norm tr consumed hlen hpw hub hB
    simp only [stripTrailingF]
    exact ⟨hpw, hub, hB⟩
  | succ fuel IH =>
    intro norm tr consumed hlen hpw hub hB
    simp only [stripTrailingF]
    split_ifs with hc
    · have hsp1 : 1 ≤ space.length := by
        have := List.length_pos.mpr hc.1
        omega
      have hsle : space.length ≤ norm.length := hc.2.length_le
      have hlt : norm.length - space.length < tr.length := by omega
      have hget : tr.getD (norm.length - space.length) 0 =
          tr[norm.length - space.length] :=
        List.getD_eq_getElem tr 0 hlt
      apply IH
      · simp [hlen]
      · exact hpw.sublist (List.take_sublist _ _)
      · intro x hx
        rw [hget]
        rcases List.mem_take_iff_getElem.mp hx with ⟨i, hi, hxi⟩
        have hilt : i < norm.length - space.length := by
          simp at hi
          omega
        have := List.pairwise_iff_getElem.mp hpw i
          (norm.length - space.length) (by omega) hlt hilt
        calc x = tr[i] := by rw [← hxi]
        _ ≤ tr[norm.length - space.length] := this
      · rw [hget]
        exact le_trans (hub _ (List.getElem_mem hlt)) hB
    · exact ⟨hpw, hub, hB⟩

lemma preStep_len (N : Normalizer) (c : Nat) :
    (preStep N c).2.length = (preStep N c).1.length := by
  rw [preStep]
  split_ifs <;> rfl

lemma preStep_pw (N : Normalizer) (c : Nat) :
    (preStep N c).2.Pairwise (· ≤ ·) := by
  rw [preStep]
  split_ifs <;> simp

lemma preStep_ub (N : Normalizer) (c : Nat) :
    ∀ x ∈ (preStep N c).2, x ≤ c := by
  rw [preStep]
  split_ifs <;> intro x hx <;> simp at hx <;> omega

lemma stStep_le {N : Normalizer} (hwf : TrieOK N) (input : List Nat) :
    (stStep N input).2 + (stStep N input).1.length ≤ input.length := by
  rw [stStep]
  split_ifs with h
  · have := stripLeadingF_le hwf (input.length + 1) input 0
    omega
  · simp

lemma finStep_len (N : Normalizer) (ml : List Nat × List Nat × Nat)
    (h : ml.2.1.length = ml.1.length) :
    (finStep N ml).2.1.length = (finStep N ml).1.length := by
  rw [finStep]
  split_ifs <;>
    first
      | exact stripTrailingF_len _ _ _ _ _ h
      | exact h

lemma finStep_bounds (N : Normalizer) (ml : List Nat × List Nat × Nat)
    (B : Nat) (hlen : ml.2.1.length = ml.1.length)
    (hpw : ml.2.1.Pairwise (· ≤ ·)) (hub : ∀ x ∈ ml.2.1, x ≤ ml.2.2)
    (hB : ml.2.2 ≤ B) :
    (finStep N ml).2.1.Pairwise (· ≤ ·) ∧
    (∀ x ∈ (finStep N ml).2.1, x ≤ (finStep N ml).2.2) ∧
    (finStep N ml).2.2 ≤ B := by
  rw [finStep]
  split_ifs <;>
    first
      | exact stripTrailingF_bounds _ B _ _ _ _ hlen hpw hub hB
      | exact ⟨hpw, hub, hB⟩

lemma normalizeBody_check (N : Normalizer) (input : List Nat) :
    ((finStep N (mainLoopF N ((stStep N input).1.length + 1)
        (stStep N input).1 (stStep N input).2
        N.spec.removeExtraWhitespaces (preStep N (stStep N input).2).1
        (preStep N (stStep N input).2).2)).2.1 ++
      [(finStep N (mainLoopF N ((stStep N input).1.length + 1)
        (stStep N input).1 (stStep N input).2
        N.spec.removeExtraWhitespaces (preStep N (stStep N input).2).1
        (preStep N (stStep N input).2).2)).2.2]).length =
    (finStep N (mainLoopF N ((stStep N input).1.length + 1)
        (stStep N input).1 (stStep N input).2
        N.spec.removeExtraWhitespaces (preStep N (stStep N input).2).1
        (preStep N (stStep N input).2).2)).1.length + 1 := by
  have hm := mainLoopF_len N ((stStep N input).1.length + 1)
    (stStep N input).1 (stStep N input).2 N.spec.removeExtraWhitespaces
    (preStep N (stStep N input).2).1 (preStep N (stStep N input).2).2
    (preStep_len N _)
  have hf := finStep_len N _ hm
  simp [hf]

lemma normalizeBody_status (N : Normalizer) (input : List Nat) :
    (normalizeBody N input).1 = none := by
  simp only [normalizeBody]
  split_ifs with h1 h2
  · rfl
  · rfl
  · exact absurd (normalizeBody_check N input) h2

lemma normalizeBody_inv {N : Normalizer} (hwf : TrieOK N)
    (input : List Nat) :
    ((normalizeBody N input).2.1 = [] ∧ (normalizeBody N input).2.2 = []) ∨
    ((normalizeBody N input).2.2.length =
        (normalizeBody N input).2.1.length + 1 ∧
      (normalizeBody N input).2.2.Pairwise (· ≤ ·) ∧
      ∀ x ∈ (normalizeBody N input).2.2, x ≤ input.length) := by
  simp only [normalizeBody]
  split_ifs with h1 h2
  · exact Or.inl ⟨rfl, rfl⟩
  · right
    have hst := stStep_le hwf input
    have hmb := mainLoopF_bounds hwf ((stStep N input).1.length + 1)
      (stStep N input).1 (stStep N input).2 N.spec.removeExtraWhitespaces
      (preStep N (stStep N input).2).1 (preStep N (stStep N input).2).2
      (preStep_pw N _) (preStep_ub N _)
    have hmlen := mainLoopF_len N ((stStep N input).1.length + 1)
      (stStep N input).1 (stStep N input).2 N.spec.removeExtraWhitespaces
      (preStep N (stStep N input).2).1 (preStep N (stStep N input).2).2
      (preStep_len N _)
    have hfb := finStep_bounds N _ input.length hmlen hmb.1 hmb.2.1
      (le_trans hmb.2.2.2 (by omega))
    refine ⟨h2, ?_, ?_⟩
    · refine List.pairwise_append.mpr ⟨hfb.1, List.pairwise_singleton _ _, ?_⟩
      intro x hx y hy
      simp at hy
      subst hy
      exact hfb.2.1 x hx
    · intro x hx
      rcases List.mem_append.mp hx with hx | hx
      · exact le_trans (hfb.2.1 x hx) hfb.2.2
      · simp at hx
        subst hx
        exact hfb.2.2
  · exact absurd (normalizeBody_check N input) h2

/-- Claim C9: Normalize clears both output parameters before any work, so
every non-Ok return (only the latched construction error is reachable)
leaves both outputs empty; the closing length check never fires. -/
theorem normalize_error_outputs_empty (N : Normalizer)
    (input norm0 tr0 : List Nat) (e : String) (n t : List Nat)
    (h : normalizeInto N input norm0 tr0 = (some e, n, t)) :
    n = [] ∧ t = [] := by
  simp only [normalizeInto] at h
  split_ifs at h with h1
  · simp at h
  · cases hs : N.status with
    | some e2 =>
      rw [hs] at h
      simp at h
      exact ⟨h.2.1, h.2.2⟩
    | none =>
      rw [hs] at h
      simp only at h
      have hst := normalizeBody_status N input
      rw [h] at hst
      simp at hst

/-- Claim C9 (witness): a corrupt-charsmap normalizer on a nonempty input
returns its latched error with both outputs empty. -/
theorem normalize_error_outputs_empty_witness :
    ([] : List Nat) = [] ∧ ([] : List Nat) = [] :=
  normalize_error_outputs_empty
    (Normalizer.make (fun _ _ => []) ⟨true, true, true⟩ [1, 2, 3])
    [5] [7] [8] "Blob for normalization rule is broken." [] [] rfl

/-- Claim C1 (amended): for every accepted input (with a well-formed trie),
the trace is monotonically non-decreasing, every entry is at most the input
length (the trailing sentinel may equal it), and unless the early empty
returns produced two empty outputs, the trace has length
normalized.length + 1. -/
theorem normalize_trace_invariants (N : Normalizer)
    (input norm tr : List Nat) (hwf : TrieOK N)
    (hok : Normalizer.normalize N input = .ok (norm, tr)) :
    tr.Pairwise (· ≤ ·) ∧ (∀ x ∈ tr, x ≤ input.length) ∧
    ((norm = [] ∧ tr = []) ∨ tr.length = norm.length + 1) := by
  rw [Normalizer.normalize] at hok
  rcases hni : normalizeInto N input [] [] with ⟨os, nn, tt⟩
  rw [hni] at hok
  cases os with
  | some e => simp at hok
  | none =>
    simp at hok
    obtain ⟨h1, h2⟩ := hok
    subst h1
    subst h2
    simp only [normalizeInto] at hni
    split_ifs at hni with h1
    · simp at hni
      obtain ⟨h2, h3⟩ := hni
      subst h2
      subst h3
      exact ⟨List.Pairwise.nil, by simp, Or.inl ⟨rfl, rfl⟩⟩
    · cases hs : N.status with
      | some e2 =>
        rw [hs] at hni
        simp at hni
      | none =>
        rw [hs] at hni
        simp only at hni
        have hinv := normalizeBody_inv hwf input
        rw [hni] at hinv
        simp only at hinv
        rcases hinv with ⟨h2, h3⟩ | ⟨hl, hpw, hub⟩
        · subst h2
          subst h3
          exact ⟨List.Pairwise.nil, by simp, Or.inl ⟨rfl, rfl⟩⟩
        · exact ⟨hpw, hub, Or.inr hl⟩

/-- Claim C1 (witness): identity normalization of a one-byte input gives
the trace 0, 1, which is non-decreasing, bounded by the input length and
one longer than the output. -/
theorem normalize_trace_invariants_witness :
    ([0, 1] : List Nat).Pairwise (· ≤ ·) ∧
    (∀ x ∈ ([0, 1] : List Nat), x ≤ ([97] : List Nat).length) ∧
    ((([97] : List Nat) = [] ∧ ([0, 1] : List Nat) = []) ∨
      ([0, 1] : List Nat).length = ([97] : List Nat).length + 1) :=
  normalize_trace_invariants (mkEmptyNormalizer ⟨false, false, false⟩)
    [97] [97] [0, 1] (fun _ hf => Option.noConfusion hf) rfl

/-- Claim C1 (counterexample to the claim as stated): on empty input
Normalize succeeds with an empty trace, so the trace length is not
normalized.length + 1; and on the one-byte input 97 the trailing sentinel
equals the input length, so it is not a strict index into the input. -/
theorem normalize_trace_claim_counterexample :
    Normalizer.normalize (mkEmptyNormalizer ⟨false, false, false⟩) [] =
      .ok ([], []) ∧
    ¬ (([] : List Nat).length = ([] : List Nat).length + 1) ∧
    Normalizer.normalize (mkEmptyNormalizer ⟨false, false, false⟩) [97] =
      .ok ([97], [0, 1]) ∧
    (1 : Nat) ∈ ([0, 1] : List Nat) ∧
    ¬ ((1 : Nat) < ([97] : List Nat).length) :=
  ⟨rfl, by decide, rfl, by decide, by decide⟩

lemma emitPieces_eq (k : Nat) (ls : ℝ) :
    ∀ (l : List (Nat × Nat)) (acc : List (List Nat × ℝ)),
      acc.length ≤ k →
      emitPieces k ls l acc =
        acc ++ (l.take (k - acc.length)).map
          (fun it => (unicodeCharToUTF8 it.1, Real.log (it.2 : ℝ) - ls)) := by
  intro l
  induction l with
  | nil =>
    intro acc h
    simp [emitPieces]
  | cons it rest IH =>
    intro acc h
    rw [emitPieces]
    split_ifs with hacc
    · rw [hacc]
      simp
    · rw [IH _ (by simp; omega)]
      have hk : k - acc.length = (k - (acc.length + 1)) + 1 := by omega
      rw [hk, List.take_succ_cons, List.map_cons]
      simp

/-- Claim C8: the character trainer fails before LoadSentences whenever a
spec-consistency check fails (escape_whitespaces disabled, or a model type
other than CHAR): no sentences are loaded, no final pieces are produced,
and an error status is returned. -/
theorem char_train_fail_fast (env : CharTrainerEnv)
    (h : env.escape_whitespaces = false ∨
      env.model_type ≠ ModelType.CHAR) :
    (charTrainerTrain env).loadCalled = false ∧
    (charTrainerTrain env).finalPieces = [] ∧
    (charTrainerTrain env).status.isSome = true := by
  cases hs : env.status with
  | some e => simp [charTrainerTrain, hs]
  | none =>
    rcases h with h | h
    · simp [charTrainerTrain, hs, h]
    · by_cases hesc : env.escape_whitespaces = false
      · simp [charTrainerTrain, hs, hesc]
      · have hesc2 : env.escape_whitespaces = true := by
          cases henv : env.escape_whitespaces
          · exact absurd henv hesc
          · rfl
        simp [charTrainerTrain, hs, hesc2, h]

/-- Claim C8 (witness): a trainer whose spec has escape_whitespaces
disabled fails without loading sentences. -/
theorem char_train_fail_fast_witness :
    (charTrainerTrain
      ⟨none, false, ModelType.CHAR, none, [], [], 1, 0, none⟩).loadCalled =
        false ∧
    (charTrainerTrain
      ⟨none, false, ModelType.CHAR, none, [], [], 1, 0, none⟩).finalPieces =
        [] ∧
    (charTrainerTrain
      ⟨none, false, ModelType.CHAR, none, [], [], 1, 0,
        none⟩).status.isSome = true :=
  char_train_fail_fast _ (Or.inl rfl)

/-- Claim C10: on a successful run the character trainer emits the sorted
required characters in order, truncated to vocab_size minus the number of
meta pieces, each scored log(frequency) minus the log of the sum of
frequencies over ALL required characters (not just the emitted subset). -/
theorem char_train_final_pieces (env : CharTrainerEnv)
    (hst : env.status = none) (hesc : env.escape_whitespaces = true)
    (hmt : env.model_type = ModelType.CHAR) (hld : env.load = none)
    (hvm : env.meta ≤ env.vocab_size)
    (hsum : ((env.required.map fun it => it.2).sum) < 2 ^ 64) :
    (charTrainerTrain env).finalPieces =
      (env.sortedRequired.take (env.vocab_size - env.meta)).map
        (fun it => (unicodeCharToUTF8 it.1,
          Real.log (it.2 : ℝ) -
            Real.log (((env.required.map fun it => it.2).sum : ℕ) : ℝ))) := by
  have hnv : ¬ env.vocab_size < env.meta := by omega
  simp only [charTrainerTrain, hst, hesc, hmt, hld, if_neg hnv]
  rw [Nat.mod_eq_of_lt hsum]
  rw [emitPieces_eq _ _ _ [] (by simp)]
  simp

/-- Claim C10 (witness): one required character of frequency 2, vocab
budget 1, no meta pieces. -/
theorem char_train_final_pieces_witness :
    (charTrainerTrain
      ⟨none, true, ModelType.CHAR, none, [(97, 2)], [(97, 2)], 1, 0,
        none⟩).finalPieces =
      (([((97 : Nat), (2 : Nat))]).take 1).map
        (fun it => (unicodeCharToUTF8 it.1,
          Real.log (it.2 : ℝ) -
            Real.log ((((([((97 : Nat), (2 : Nat))]).map
              fun it => it.2).sum : ℕ) : ℝ)))) :=
  char_train_final_pieces _ rfl rfl rfl rfl (by decide) (by decide)
